import Mathlib

/-!
# Verification of the shot-sequence timeline model

Shallow embedding of the sequencer tool's timeline model
(`scripts/sequence.py`, `scripts/shots.py`, `scripts/dependencies.py`,
`ui/windows.py`) and proofs about it.

Python strings are modelled as lists of characters (`PyStr`), machine
integers as `Int`, and fallible Python code (uncaught exceptions) as
`Except PyErr`.  Host-application state that the code reads or writes
(bookmark node attributes, camera keyframes, the playback window) is made
explicit in the state structures.
-/

set_option linter.unusedVariables false

/-- A Python string, modelled as its list of characters. -/
abbrev PyStr := List Char

/-- The kinds of Python exception that the embedded code can raise. -/
inductive PyErr where
  /-- `ValueError` (failed `int()` parse, failed tuple unpack, explicit `raise ValueError`). -/
  | valueError : PyErr
  /-- `IndexError` (indexing an empty list with `[0]`). -/
  | indexError : PyErr
  /-- `AttributeError` (e.g. calling `.split` on a tuple). -/
  | attributeError : PyErr
  /-- Duplicate-name condition on shot creation. -/
  | duplicate : PyErr
deriving DecidableEq, Repr

deriving instance DecidableEq for Except

/-- Character list of a Lean string literal; used to write Python string literals. -/
def pyLit (s : String) : PyStr := s.data

/-- Python's `str.split("_")`: split on every underscore, keeping empty parts. -/
def pySplitUnd : PyStr → List PyStr
  | [] => [[]]
  | c :: rest =>
    let r := pySplitUnd rest
    if c = '_' then [] :: r
    else
      match r with
      | [] => [[c]]
      | h :: t => (c :: h) :: t

/-! ## Decimal digits, `int()` parsing and `f"{x:03}"` formatting -/

/-- Fuel-driven decimal digit list of a natural number, most significant first.
The fuel is always sufficient when called through `natDigits`. -/
def natDigitsF : Nat → Nat → List Char
  | 0, _ => []
  | fuel + 1, n =>
    if n < 10 then [Nat.digitChar n]
    else natDigitsF fuel (n / 10) ++ [Nat.digitChar (n % 10)]

/-- Decimal digit characters of a natural number, most significant first
(the digits Python prints for a nonnegative integer). -/
def natDigits (n : Nat) : List Char := natDigitsF (n + 1) n

/-- Numeric value of a digit-character list, as computed by a left fold
(matches Python's `int()` on an all-digit string). -/
def valCh (l : PyStr) : Nat := l.foldl (fun a c => 10 * a + (c.toNat - 48)) 0

/-- Left-pad a digit list with `'0'` up to width `w`
(the padding of Python's `f"{n:0w}"` format). -/
def zpad (w : Nat) (ds : List Char) : List Char :=
  List.replicate (w - ds.length) '0' ++ ds

/-- Python's `int()` applied to the characters of a string: an optional sign
followed by one or more digit characters.  (`int()`'s tolerance for
surrounding whitespace and `_` digit grouping is not modelled; no input in
this development uses either.) -/
def pyDigitsVal : PyStr → Option Nat
  | [] => none
  | ds => if ds.all Char.isDigit then some (valCh ds) else none

def pyInt : PyStr → Option Int
  | [] => none
  | c :: ds =>
    if c = '-' then (pyDigitsVal ds).map (fun n => -(n : Int))
    else if c = '+' then (pyDigitsVal ds).map (fun n => (n : Int))
    else (pyDigitsVal (c :: ds)).map (fun n => (n : Int))

/-- Python's `f"{x:03}"`: decimal representation, zero-padded to at least
three characters (a sign counts toward the width). -/
def pyFormat3 (x : Int) : PyStr :=
  if x < 0 then '-' :: zpad 2 (natDigits (-x).toNat)
  else zpad 3 (natDigits x.toNat)

/-! ## The Shot model (`scripts/shots.py`)

A shot is a Python object caching the attributes of a Maya time-slider
bookmark node.  The node's attributes are the authoritative store; the
object's fields are refreshed from it by `refresh`.  The bound camera's
keyframes live in the Maya scene; their accumulated time shift is modelled
by the explicit `camShift` field.  The cached display color (a float
triple) plays no role in any claim and is omitted. -/

/-- A Python value that is either a string or a one-element tuple of a
string (the two things the code ever stores in `Shot.name`). -/
inductive PyNameVal where
  | str : PyStr → PyNameVal
  | tup1 : PyStr → PyNameVal
deriving DecidableEq, Repr

/-- The attributes of the backing `timeSliderBookmark` node. -/
structure BookmarkNode where
  shot : PyStr
  cam : PyStr
  timeRangeStart : Int
  timeRangeStop : Int
deriving DecidableEq, Repr

/-- The `Shot` object: its node plus the cached attribute values and the
accumulated keyframe shift of its camera. -/
structure Shot where
  node : BookmarkNode
  name : PyNameVal
  cam : PyStr
  start : Int
  stop : Int
  camShift : Int
deriving DecidableEq, Repr

/-- `Shot.__init__`: cache the node's attributes.  Note the name is cached
as a plain string here. -/
def Shot.ofNode (n : BookmarkNode) : Shot :=
  { node := n, name := .str n.shot, cam := n.cam,
    start := n.timeRangeStart, stop := n.timeRangeStop, camShift := 0 }

/-- `Shot.refresh`: re-read the cached fields from the node.  The source
assigns `self.name = (cmds.getAttr(f"{self.node}.shot"),)` — a one-element
tuple, not a string. -/
def Shot.refresh (s : Shot) : Shot :=
  { s with name := .tup1 s.node.shot, cam := s.node.cam,
           start := s.node.timeRangeStart, stop := s.node.timeRangeStop }

/-- `Shot.move(offset, move_bookmark, move_camera)`: write the shifted
range to the node (if `move_bookmark`), `refresh`, then shift the camera's
keyframes (if `move_camera`). -/
def Shot.move (s : Shot) (offset : Int) (move_bookmark move_camera : Bool) : Shot :=
  let s1 := if move_bookmark then
      { s with node := { s.node with timeRangeStart := s.start + offset,
                                     timeRangeStop := s.stop + offset } }
    else s
  let s2 := s1.refresh
  if move_camera then { s2 with camShift := s2.camShift + offset } else s2

/-- `Shot.offset_end_frame(offset)`: write `stop + offset` to the node's
stop attribute.  The source does not call `refresh` here, so the cached
fields are left untouched. -/
def Shot.offset_end_frame (s : Shot) (offset : Int) : Shot :=
  { s with node := { s.node with timeRangeStop := s.stop + offset } }

/-! ## Ordering of shots -/

/-- The comparison used by every `sorted(..., key=lambda item: item.start)`. -/
def shotLE (a b : Shot) : Prop := a.start ≤ b.start

instance : DecidableRel shotLE := fun a b => inferInstanceAs (Decidable (a.start ≤ b.start))

instance : IsTotal Shot shotLE := ⟨fun a b => Int.le_total a.start b.start⟩

instance : IsTrans Shot shotLE := ⟨fun _ _ _ h₁ h₂ => le_trans h₁ h₂⟩

/-- Shots sorted ascending by `start`. -/
def SortedByStart (l : List Shot) : Prop := l.Sorted shotLE

instance (l : List Shot) : Decidable (SortedByStart l) :=
  inferInstanceAs (Decidable (l.Pairwise shotLE))

/-- Every shot's interval is well-formed, `start ≤ stop` (the data-model
invariant of a closed interval). -/
def WFShots (l : List Shot) : Prop := ∀ s ∈ l, s.start ≤ s.stop

instance (l : List Shot) : Decidable (WFShots l) :=
  inferInstanceAs (Decidable (∀ s ∈ l, s.start ≤ s.stop))

/-! ## The Sequence model (`scripts/sequence.py`) -/

/-- The `SequencerSequence` object.  The preview-viewport handle and the
auto-solo-camera flag play no role in any claim and are omitted. -/
structure SequencerSequence where
  name : PyStr
  shots : List Shot
deriving DecidableEq, Repr

/-- `SequencerSequence.sort_shots`: stable sort of the shots by `start`. -/
def SequencerSequence.sort_shots (q : SequencerSequence) : SequencerSequence :=
  { q with shots := q.shots.insertionSort shotLE }

/-- The accumulating loop of `get_shots_at_time`. -/
def shotsAtTimeLoop (time : Int) : List Shot → List Shot → List Shot
  | acc, [] => acc
  | acc, s :: rest =>
    shotsAtTimeLoop time (if s.start ≤ time ∧ time ≤ s.stop then acc ++ [s] else acc) rest

/-- `SequencerSequence.get_shots_at_time(time)`: collect, in list order,
every shot with `start <= time <= stop`. -/
def SequencerSequence.get_shots_at_time (q : SequencerSequence) (time : Int) : List Shot :=
  shotsAtTimeLoop time [] q.shots

/-- `SequencerSequence.get_next_shots_at_time(time)`: every shot with `start > time`. -/
def nextShotsLoop (time : Int) : List Shot → List Shot → List Shot
  | acc, [] => acc
  | acc, s :: rest =>
    nextShotsLoop time (if s.start > time then acc ++ [s] else acc) rest

def SequencerSequence.get_next_shots_at_time (q : SequencerSequence) (time : Int) : List Shot :=
  nextShotsLoop time [] q.shots

/-- `SequencerSequence.delete_shot_at_time(time)`: index the first result
of `get_shots_at_time` (IndexError when there is none), then remove it
from the list (and delete the backing node, which has no further model
state). -/
def SequencerSequence.delete_shot_at_time (q : SequencerSequence) (time : Int) :
    Except PyErr SequencerSequence :=
  match q.get_shots_at_time time with
  | [] => .error .indexError
  | active :: _ => .ok { q with shots := q.shots.erase active }

/-- The in-place effect of `offset_frame_of_shot_at_time`'s body on the
shot list: the first shot containing `time` gets `offset_end_frame total`;
every shot with `start > time` (the "next shots") gets `move total`; all
others are untouched.  `found` records whether the active shot has been
passed already. -/
def offsetLoop (time total : Int) : Bool → List Shot → List Shot
  | _, [] => []
  | found, s :: rest =>
    if ¬found ∧ s.start ≤ time ∧ time ≤ s.stop then
      s.offset_end_frame total :: offsetLoop time total true rest
    else if s.start > time then
      s.move total true true :: offsetLoop time total found rest
    else
      s :: offsetLoop time total found rest

/-- `SequencerSequence.offset_frame_of_shot_at_time(time, total)`:
lengthen the active shot's end by `total` and move every later shot by
`total`.  Indexing `get_shots_at_time(time)[0]` raises IndexError when no
shot contains `time`.  The source performs no re-sort afterwards. -/
def SequencerSequence.offset_frame_of_shot_at_time (q : SequencerSequence) (time total : Int) :
    Except PyErr SequencerSequence :=
  match q.get_shots_at_time time with
  | [] => .error .indexError
  | _ :: _ => .ok { q with shots := offsetLoop time total false q.shots }

/-- The body of `resolve_overlapping_shots`' loop: `prev` is the previous
shot (already corrected, since the loop mutates the list in place);
whenever the current shot starts before `prev.stop`, move it forward by
`prev.stop - curr.start + 1`. -/
def overlapPassAux : Shot → List Shot → List Shot
  | _, [] => []
  | prev, b :: rest =>
    if b.start < prev.stop then
      b.move (prev.stop - b.start + 1) true true
        :: overlapPassAux (b.move (prev.stop - b.start + 1) true true) rest
    else
      b :: overlapPassAux b rest

/-- The loop of `resolve_overlapping_shots` over the whole list (indices
`1 .. len-1`, each compared with its in-place-updated predecessor). -/
def overlapPass : List Shot → List Shot
  | [] => []
  | a :: rest => a :: overlapPassAux a rest

/-- `SequencerSequence.resolve_overlapping_shots`: the forward pass, then
`sort_shots`. -/
def SequencerSequence.resolve_overlapping_shots (q : SequencerSequence) : SequencerSequence :=
  SequencerSequence.sort_shots { q with shots := overlapPass q.shots }

/-- The body of `resolve_gaps_between_shots`' loop: `prev` is the current
shot (already corrected in place); whenever at least one frame of gap
separates it from the next shot, move the next backward by
`(next.start - prev.stop) - 1`. -/
def gapPassAux : Shot → List Shot → List Shot
  | _, [] => []
  | prev, b :: rest =>
    if prev.stop < b.start - 1 then
      b.move (-(b.start - prev.stop) + 1) true true
        :: gapPassAux (b.move (-(b.start - prev.stop) + 1) true true) rest
    else
      b :: gapPassAux b rest

/-- The loop of `resolve_gaps_between_shots` over the whole list (indices
`0 .. len-2`, each next shot compared with its in-place-updated
predecessor). -/
def gapPass : List Shot → List Shot
  | [] => []
  | a :: rest => a :: gapPassAux a rest

/-- `SequencerSequence.resolve_gaps_between_shots`: the backward-moving
pass, then `sort_shots`. -/
def SequencerSequence.resolve_gaps_between_shots (q : SequencerSequence) : SequencerSequence :=
  SequencerSequence.sort_shots { q with shots := gapPass q.shots }

/-! ## Name generation (`generate_shot_name`) -/

/-- Using a `Shot.name` value as a string (`.split(...)` etc.).  On a
tuple this raises `AttributeError` in Python. -/
def pyNameAsStr : PyNameVal → Except PyErr PyStr
  | .str s => .ok s
  | .tup1 _ => .error .attributeError

/-- One element of the comprehension
`int(shot.name.split("_")[-1][2:-1])`: the last underscore-separated part
of the name, with the first two and the final character sliced away,
parsed by `int()` (ValueError when unparsable). -/
def shotNumber (s : Shot) : Except PyErr Int := do
  let n ← pyNameAsStr s.name
  let part := (pySplitUnd n).getLastD []
  match pyInt ((part.drop 2).dropLast) with
  | some k => .ok k
  | none => .error .valueError

/-- The list comprehension over all shots, left to right, first exception
propagating. -/
def shotNumbers : List Shot → Except PyErr (List Int)
  | [] => .ok []
  | s :: rest => do
    let k ← shotNumber s
    let ks ← shotNumbers rest
    .ok (k :: ks)

/-- `SequencerSequence.generate_shot_name()`: with shots present, take the
first shot's name prefix, parse the sliced numeric suffix of every shot,
sort the numbers and build `f"{name}_SH{last + 1:03}0"` from the largest;
with no shots, return `f"{name}_SH0010"`.  (The method also stores the
prefix back into `self.name`; only the returned string is modelled, no
claim mentions the field update.) -/
def SequencerSequence.generate_shot_name (q : SequencerSequence) : Except PyErr PyStr :=
  match q.shots with
  | [] => .ok (q.name ++ pyLit "_SH0010")
  | s₀ :: _ => do
    let n₀ ← pyNameAsStr s₀.name
    let seqPrefix := (pySplitUnd n₀).headD []
    let nums ← shotNumbers q.shots
    let sortedNums := nums.insertionSort (· ≤ ·)
    .ok (seqPrefix ++ pyLit "_SH" ++ pyFormat3 (sortedNums.getLastD 0 + 1) ++ ['0'])

/-! ## The name validator (`scripts/dependencies.py`) -/

/-- `str.startswith("SQ")`: the first two characters are `SQ`. -/
def startsSQ (l : PyStr) : Bool := decide (l.take 2 = ['S', 'Q'])

/-- `str.startswith("SH")`: the first two characters are `SH`. -/
def startsSH (l : PyStr) : Bool := decide (l.take 2 = ['S', 'H'])

/-- `str.isdigit()`: nonempty and all digit characters. -/
def pyIsDigitStr (l : PyStr) : Bool := !l.isEmpty && l.all Char.isDigit

/-- `valid_shot_name(name)`: unpack `name.split("_")` into exactly two
parts (ValueError otherwise), require the `SQ`/`SH` prefixes and all-digit
remainders (ValueError otherwise), and return the name unchanged. -/
def valid_shot_name (name : PyStr) : Except PyErr PyStr :=
  match pySplitUnd name with
  | [seq, shot] =>
    if !startsSQ seq || !startsSH shot then .error .valueError
    else if !pyIsDigitStr (seq.drop 2) || !pyIsDigitStr (shot.drop 2) then .error .valueError
    else .ok name
  | _ => .error .valueError

/-- The names the validator actually accepts (for comparison with the
source): `SQ` + one or more digits + `_SH` + one or more digits. -/
def RelaxedShotName (name : PyStr) : Prop :=
  ∃ d₁ d₂ : PyStr,
    name = 'S' :: 'Q' :: (d₁ ++ '_' :: 'S' :: 'H' :: d₂) ∧
    d₁ ≠ [] ∧ d₂ ≠ [] ∧ (∀ c ∈ d₁, c.isDigit = true) ∧ (∀ c ∈ d₂, c.isDigit = true)

/-- The spec's stated pattern `SQ####_SH####`, written from the spec's
words: prefix `SQ` plus exactly 4 digits, underscore, prefix `SH` plus
exactly 4 digits. -/
def specShotNamePattern (name : PyStr) : Bool :=
  match name with
  | 'S' :: 'Q' :: a :: b :: c :: d :: '_' :: 'S' :: 'H' :: e :: f :: g :: h :: [] =>
    a.isDigit && b.isDigit && c.isDigit && d.isDigit &&
      e.isDigit && f.isDigit && g.isDigit && h.isDigit
  | _ => false

/-! ## Playback window, focus predicates and the UI backend
(`scripts/sequence.py`, `ui/windows.py`) -/

/-- The host's playback range, `playbackOptions` min/max. -/
structure PlaybackWindow where
  minTime : Int
  maxTime : Int
deriving DecidableEq, Repr

/-- Last shot of a nonempty list (`self.shots[-1]`). -/
def lastShot (s₀ : Shot) (rest : List Shot) : Shot := rest.getLastD s₀

/-- `is_sequence_focus`: `[shots[0].start, shots[-1].stop] == [min, max]`.
Indexing crashes on an empty sequence. -/
def SequencerSequence.is_sequence_focus (q : SequencerSequence) (w : PlaybackWindow) :
    Except PyErr Bool :=
  match q.shots with
  | [] => .error .indexError
  | s₀ :: rest =>
    .ok (decide (s₀.start = w.minTime ∧ (lastShot s₀ rest).stop = w.maxTime))

/-- `is_shot_focus_at_time`: some shot at `time` whose bounds equal the
playback range. -/
def SequencerSequence.is_shot_focus_at_time (q : SequencerSequence) (time : Int)
    (w : PlaybackWindow) : Bool :=
  (q.get_shots_at_time time).any (fun s => decide (s.start = w.minTime ∧ s.stop = w.maxTime))

/-- `is_sequence_fully_defocus`: `shots[0].start > min and shots[-1].stop < max`. -/
def SequencerSequence.is_sequence_fully_defocus (q : SequencerSequence) (w : PlaybackWindow) :
    Except PyErr Bool :=
  match q.shots with
  | [] => .error .indexError
  | s₀ :: rest =>
    .ok (decide (s₀.start > w.minTime ∧ (lastShot s₀ rest).stop < w.maxTime))

/-- `extra_defocus` with the default `defocus_amount=24`: widen the range
by 24 at each end. -/
def extraDefocus (w : PlaybackWindow) : PlaybackWindow :=
  { minTime := w.minTime - 24, maxTime := w.maxTime + 24 }

/-- Modelled from the spec: `SequencerSequence.defocus` calls Maya's
`timeSliderBookmark.frameAllBookmark()`, host code not part of this
repository.  Per the spec it "resets the playback range to see all shots":
the window becomes exactly the bounds of all shots. -/
def frameAllBookmark (shots : List Shot) (w : PlaybackWindow) : PlaybackWindow :=
  match shots with
  | [] => w
  | s :: rest =>
    { minTime := rest.foldl (fun m x => min m x.start) s.start,
      maxTime := rest.foldl (fun m x => max m x.stop) s.stop }

namespace Backend

/-- `Backend.defocus_active_shot`: if sequence-focused or shot-focused or
fully defocused, `extra_defocus()`; otherwise `defocus()`.  The Python
`or` is short-circuiting, so the later predicates are only evaluated when
the earlier ones are false. -/
def defocus_active_shot (q : SequencerSequence) (time : Int) (w : PlaybackWindow) :
    Except PyErr PlaybackWindow := do
  let a ← q.is_sequence_focus w
  if a then
    .ok (extraDefocus w)
  else if q.is_shot_focus_at_time time w then
    .ok (extraDefocus w)
  else do
    let c ← q.is_sequence_fully_defocus w
    if c then .ok (extraDefocus w) else .ok (frameAllBookmark q.shots w)

/-- `Backend.delete_shot`: index `get_shots_at_time(current_time)[0]`
first (IndexError on an empty result — the `if not shot:` warning branch
below it can never fire for the empty case, and a Shot instance is always
truthy), then show the confirmation dialog and on "Yes" delegate to
`delete_shot_at_time`. -/
def delete_shot (q : SequencerSequence) (time : Int) (confirm : Bool) :
    Except PyErr SequencerSequence :=
  match q.get_shots_at_time time with
  | [] => .error .indexError
  | _ :: _ =>
    if confirm then q.delete_shot_at_time time else .ok q

end Backend

/-- Modelled from the spec: `SequencerShot.create` (the class imported by
`ui/windows.py` is not among the repository's source files).  Per the
spec's insert operation: fail with Duplicate if a shot with that name
already exists, otherwise create a shot at the current playhead `t` with
`stop = t + length`. -/
def SequencerShot.create (existing : List Shot) (name : PyStr) (t len : Int) :
    Except PyErr Shot :=
  if existing.any (fun s => s.name = .str name) then .error .duplicate
  else .ok (Shot.ofNode { shot := name, cam := name, timeRangeStart := t, timeRangeStop := t + len })

/-- `Backend.do_create_shot`: create the shot, append it to the sequence
and re-sort by `start`. -/
def Backend.do_create_shot (q : SequencerSequence) (name : PyStr) (t len : Int) :
    Except PyErr SequencerSequence := do
  let shot ← SequencerShot.create q.shots name t len
  .ok { q with shots := (q.shots ++ [shot]).insertionSort shotLE }

/-! ## Concrete fixtures for the scenario parts of the claims -/

/-- A freshly loaded shot with the given name and range. -/
def mkTestShot (nm : String) (a b : Int) : Shot :=
  Shot.ofNode { shot := pyLit nm, cam := pyLit nm, timeRangeStart := a, timeRangeStop := b }

/-- A sequence with the default name `SQ0010` holding the given shots. -/
def seqOfShots (l : List Shot) : SequencerSequence :=
  { name := pyLit "SQ0010", shots := l }

/-! # Basic lemmas -/

theorem natDigitsF_fuel_irrel :
    ∀ (n f₁ f₂ : Nat), n < f₁ → n < f₂ → natDigitsF f₁ n = natDigitsF f₂ n := by
  intro n
  induction n using Nat.strong_induction_on with
  | _ n ih =>
    intro f₁ f₂ h₁ h₂
    match f₁, f₂ with
    | g₁ + 1, g₂ + 1 =>
      simp only [natDigitsF]
      split
      · rfl
      · have hn10 : 10 ≤ n := by omega
        have hlt : n / 10 < n := Nat.div_lt_self (by omega) (by omega)
        rw [ih (n / 10) hlt g₁ g₂ (by omega) (by omega)]

/-- Unfolding equation for `natDigits`. -/
theorem natDigits_eq (n : Nat) :
    natDigits n = if n < 10 then [Nat.digitChar n] else natDigits (n / 10) ++ [Nat.digitChar (n % 10)] := by
  show natDigitsF (n + 1) n = _
  rw [natDigitsF]
  split
  · rfl
  · have hlt : n / 10 < n := Nat.div_lt_self (by omega) (by omega)
    rw [natDigitsF_fuel_irrel (n / 10) n (n / 10 + 1) hlt (Nat.lt_succ_self _)]
    rfl

/-- For single digits `d < 10`, `Nat.digitChar` produces the ASCII digit with value `d`. -/
theorem digitChar_spec : ∀ d < 10, (Nat.digitChar d).isDigit = true ∧ (Nat.digitChar d).toNat - 48 = d := by
  decide

theorem natDigits_ne_nil (n : Nat) : natDigits n ≠ [] := by
  rw [natDigits_eq]
  split
  · simp
  · simp

theorem natDigits_all_digit (n : Nat) : ∀ c ∈ natDigits n, c.isDigit = true := by
  induction n using Nat.strong_induction_on with
  | _ n ih =>
    rw [natDigits_eq]
    split
    · intro c hc
      rw [List.mem_singleton] at hc
      subst hc
      exact (digitChar_spec n (by omega)).1
    · intro c hc
      rw [List.mem_append] at hc
      rcases hc with hc | hc
      · exact ih (n / 10) (Nat.div_lt_self (by omega) (by omega)) c hc
      · rw [List.mem_singleton] at hc
        subst hc
        exact (digitChar_spec (n % 10) (Nat.mod_lt _ (by omega))).1

/-- Multiplying by ten appends a `'0'` digit (for positive numbers). -/
theorem natDigits_mul_ten {n : Nat} (h : 1 ≤ n) :
    natDigits (10 * n) = natDigits n ++ ['0'] := by
  rw [natDigits_eq (10 * n)]
  have h1 : ¬ 10 * n < 10 := by omega
  rw [if_neg h1, Nat.mul_div_cancel_left n (by omega), Nat.mul_mod_right]
  rfl

theorem valCh_append_digit (l : PyStr) (c : Char) :
    valCh (l ++ [c]) = 10 * valCh l + (c.toNat - 48) := by
  simp [valCh, List.foldl_append]

theorem valCh_natDigits (n : Nat) : valCh (natDigits n) = n := by
  induction n using Nat.strong_induction_on with
  | _ n ih =>
    rw [natDigits_eq]
    split
    · next h =>
      show valCh [Nat.digitChar n] = n
      simp only [valCh, List.foldl_cons, List.foldl_nil]
      have := (digitChar_spec n h).2
      omega
    · next h =>
      rw [valCh_append_digit, ih (n / 10) (Nat.div_lt_self (by omega) (by omega))]
      have := (digitChar_spec (n % 10) (Nat.mod_lt _ (by omega))).2
      omega

theorem valCh_zpad (w : Nat) (ds : List Char) : valCh (zpad w ds) = valCh ds := by
  unfold zpad valCh
  rw [List.foldl_append]
  have : ∀ m, List.foldl (fun a c => 10 * a + (c.toNat - 48)) 0 (List.replicate m '0') = 0 := by
    intro m
    induction m with
    | zero => rfl
    | succ m ihm => simpa [List.replicate_succ]
  rw [this]

theorem zpad_all_digit (w : Nat) (ds : List Char) (h : ∀ c ∈ ds, c.isDigit = true) :
    ∀ c ∈ zpad w ds, c.isDigit = true := by
  intro c hc
  rw [zpad, List.mem_append] at hc
  rcases hc with hc | hc
  · rw [List.eq_of_mem_replicate hc]
    decide
  · exact h c hc

/-- The result of a Python `split` is never the empty list of parts. -/
theorem pySplitUnd_ne_nil (l : PyStr) : pySplitUnd l ≠ [] := by
  induction l with
  | nil => simp [pySplitUnd]
  | cons c rest ih =>
    simp only [pySplitUnd]
    split
    · simp
    · cases h : pySplitUnd rest with
      | nil => simp
      | cons h t => simp

theorem Shot.move_default_start (s : Shot) (o : Int) : (s.move o true true).start = s.start + o := rfl

theorem Shot.move_default_stop (s : Shot) (o : Int) : (s.move o true true).stop = s.stop + o := rfl

example : pySplitUnd (pyLit "SQ0010_SH0010") = [pyLit "SQ0010", pyLit "SH0010"] := by decide
example : pySplitUnd (pyLit "BADNAME") = [pyLit "BADNAME"] := by decide
example : pyFormat3 2 = pyLit "002" := by decide
example : pyFormat3 1000 = pyLit "1000" := by decide
example : pyInt (pyLit "001") = some 1 := by decide
example : pyInt (pyLit "ABC") = none := by decide
example : pyInt (pyLit "") = none := by decide

/-! # Queries -/

theorem shotsAtTimeLoop_eq_filter (time : Int) (l acc : List Shot) :
    shotsAtTimeLoop time acc l = acc ++ l.filter (fun s => decide (s.start ≤ time ∧ time ≤ s.stop)) := by
  induction l generalizing acc with
  | nil => simp [shotsAtTimeLoop]
  | cons s rest ih =>
    rw [shotsAtTimeLoop, ih, List.filter_cons]
    by_cases h : s.start ≤ time ∧ time ≤ s.stop
    · simp [h]
    · simp [h]

theorem get_shots_at_time_eq_filter (q : SequencerSequence) (time : Int) :
    q.get_shots_at_time time = q.shots.filter (fun s => decide (s.start ≤ time ∧ time ≤ s.stop)) := by
  rw [SequencerSequence.get_shots_at_time, shotsAtTimeLoop_eq_filter]
  rfl

theorem nextShotsLoop_eq_filter (time : Int) (l acc : List Shot) :
    nextShotsLoop time acc l = acc ++ l.filter (fun s => decide (s.start > time)) := by
  induction l generalizing acc with
  | nil => simp [nextShotsLoop]
  | cons s rest ih =>
    rw [nextShotsLoop, ih, List.filter_cons]
    by_cases h : s.start > time
    · simp [h]
    · simp [h]

/-! # The overlap-resolution pass -/

theorem Shot.move_wf (s : Shot) (o : Int) (h : s.start ≤ s.stop) :
    (s.move o true true).start ≤ (s.move o true true).stop := by
  simp only [Shot.move_default_start, Shot.move_default_stop]
  omega

theorem overlapPassAux_wf :
    ∀ (rest : List Shot) (prev : Shot), WFShots rest → WFShots (overlapPassAux prev rest) := by
  intro rest
  induction rest with
  | nil => intro prev _ s hs; exact absurd hs (List.not_mem_nil s)
  | cons b r ih =>
    intro prev h s hs
    have hr : WFShots r := fun x hx => h x (by simp [hx])
    rw [overlapPassAux] at hs
    split at hs
    · rcases List.mem_cons.mp hs with heq | hs
      · subst heq
        exact Shot.move_wf b _ (h b (by simp))
      · exact ih _ hr s hs
    · rcases List.mem_cons.mp hs with heq | hs
      · subst heq
        exact h _ (by simp)
      · exact ih _ hr s hs

theorem overlapPassAux_chain :
    ∀ (rest : List Shot) (prev : Shot), WFShots rest →
      List.Chain' (fun a b => a.stop ≤ b.start) (prev :: overlapPassAux prev rest) := by
  intro rest
  induction rest with
  | nil => intro prev _; simp [overlapPassAux]
  | cons b r ih =>
    intro prev h
    have hr : WFShots r := fun x hx => h x (by simp [hx])
    rw [overlapPassAux]
    split
    · next hlt =>
      refine List.chain'_cons.mpr ⟨?_, ih _ hr⟩
      rw [Shot.move_default_start]
      omega
    · next hge =>
      exact List.chain'_cons.mpr ⟨by omega, ih _ hr⟩

theorem overlapPass_wf (l : List Shot) (h : WFShots l) : WFShots (overlapPass l) := by
  cases l with
  | nil => exact h
  | cons a rest =>
    intro s hs
    rw [overlapPass] at hs
    rcases List.mem_cons.mp hs with rfl | hs
    · exact h s (by simp)
    · exact overlapPassAux_wf rest a (fun x hx => h x (by simp [hx])) s hs

theorem overlapPass_chain (l : List Shot) (h : WFShots l) :
    List.Chain' (fun a b => a.stop ≤ b.start) (overlapPass l) := by
  cases l with
  | nil => simp [overlapPass]
  | cons a rest =>
    exact overlapPassAux_chain rest a (fun x hx => h x (by simp [hx]))

/-- With well-formed intervals the pass's output is still sorted by start. -/
theorem chain_stop_start_sorted :
    ∀ l : List Shot, WFShots l →
      List.Chain' (fun a b => a.stop ≤ b.start) l → List.Chain' shotLE l := by
  intro l
  induction l with
  | nil => intro _ _; simp
  | cons a rest ih =>
    intro hwf hchain
    cases rest with
    | nil => simp
    | cons b r =>
      rw [List.chain'_cons] at hchain ⊢
      refine ⟨?_, ih (fun x hx => hwf x (by simp [hx])) hchain.2⟩
      have ha := hwf a (by simp)
      exact le_trans ha hchain.1

theorem overlapPassAux_noop :
    ∀ (rest : List Shot) (prev : Shot),
      List.Chain' (fun a b => a.stop ≤ b.start) (prev :: rest) → overlapPassAux prev rest = rest := by
  intro rest
  induction rest with
  | nil => intro prev _; rfl
  | cons b r ih =>
    intro prev hchain
    rw [List.chain'_cons] at hchain
    have hnot : ¬ b.start < prev.stop := by omega
    rw [overlapPassAux, if_neg hnot, ih b hchain.2]

/-- A list already satisfying the no-overlap condition is not changed by the pass. -/
theorem overlapPass_noop (l : List Shot)
    (h : List.Chain' (fun a b => a.stop ≤ b.start) l) : overlapPass l = l := by
  cases l with
  | nil => rfl
  | cons a rest =>
    rw [overlapPass, overlapPassAux_noop rest a h]

theorem sortedByStart_of_chain {l : List Shot} (h : List.Chain' shotLE l) : SortedByStart l :=
  List.chain'_iff_pairwise.mp h

/-- On well-formed input, `resolve_overlapping_shots` is the bare pass:
the pass's output is already sorted, so the final `sort_shots` is the
identity. -/
theorem resolve_overlapping_eq_pass (q : SequencerSequence) (hwf : WFShots q.shots) :
    q.resolve_overlapping_shots = { q with shots := overlapPass q.shots } := by
  rw [SequencerSequence.resolve_overlapping_shots, SequencerSequence.sort_shots]
  have hs : SortedByStart (overlapPass q.shots) :=
    sortedByStart_of_chain
      (chain_stop_start_sorted _ (overlapPass_wf _ hwf) (overlapPass_chain _ hwf))
  simp only
  rw [List.Sorted.insertionSort_eq hs]

/-- C1: `resolve_overlapping_shots` walks the sorted shots left to right,
moving each shot that starts before its (already corrected) predecessor's
stop forward by `prev.stop - curr.start + 1` (the definition of
`overlapPass`); afterwards no two adjacent shots satisfy
`shot[i].start < shot[i-1].stop`, and running the pass a second time
changes nothing.  For `A=[1,10]`, `B=[5,15]` the result is `B=[11,21]`
with `A` unchanged (both the bookmark range and the camera keyframes of
`B` moved by 6). -/
theorem claim_C1_resolve_overlapping :
    (∀ q : SequencerSequence, WFShots q.shots → SortedByStart q.shots →
      List.Chain' (fun a b => ¬ (b.start < a.stop)) q.resolve_overlapping_shots.shots ∧
      q.resolve_overlapping_shots.resolve_overlapping_shots = q.resolve_overlapping_shots) ∧
    ((seqOfShots [mkTestShot "SQ0010_SH0010" 1 10, mkTestShot "SQ0010_SH0020" 5 15]).resolve_overlapping_shots.shots.map
        (fun s => (s.start, s.stop)) = [(1, 10), (11, 21)] ∧
      (seqOfShots [mkTestShot "SQ0010_SH0010" 1 10, mkTestShot "SQ0010_SH0020" 5 15]).resolve_overlapping_shots.shots.head?
        = some (mkTestShot "SQ0010_SH0010" 1 10) ∧
      ((seqOfShots [mkTestShot "SQ0010_SH0010" 1 10, mkTestShot "SQ0010_SH0020" 5 15]).resolve_overlapping_shots.shots.map
        (fun s => s.camShift) = [0, 6])) := by
  constructor
  · intro q hwf hsorted
    rw [resolve_overlapping_eq_pass q hwf]
    constructor
    · exact List.Chain'.imp (fun a b h => by omega) (overlapPass_chain q.shots hwf)
    · have hwf' : WFShots (overlapPass q.shots) := overlapPass_wf _ hwf
      rw [resolve_overlapping_eq_pass _ hwf']
      simp only
      rw [overlapPass_noop _ (overlapPass_chain _ hwf)]
  · exact ⟨by decide, by decide, by decide⟩

/-- Witness for C1 at the concrete overlapping pair `A=[1,10]`, `B=[5,15]`. -/
theorem claim_C1_witness :
    List.Chain' (fun a b => ¬ (b.start < a.stop))
      (seqOfShots [mkTestShot "SQ0010_SH0010" 1 10, mkTestShot "SQ0010_SH0020" 5 15]).resolve_overlapping_shots.shots ∧
    (seqOfShots [mkTestShot "SQ0010_SH0010" 1 10, mkTestShot "SQ0010_SH0020" 5 15]).resolve_overlapping_shots.resolve_overlapping_shots
      = (seqOfShots [mkTestShot "SQ0010_SH0010" 1 10, mkTestShot "SQ0010_SH0020" 5 15]).resolve_overlapping_shots :=
  claim_C1_resolve_overlapping.1
    (seqOfShots [mkTestShot "SQ0010_SH0010" 1 10, mkTestShot "SQ0010_SH0020" 5 15])
    (by decide) (by decide)

/-! # Sortedness after mutations -/

/-- The starts after `offset_frame_of_shot_at_time`'s body: shots with
`start > time` are shifted by `total`, all other starts are unchanged
(`offset_end_frame` only touches the node's stop attribute). -/
theorem offsetLoop_starts (time total : Int) :
    ∀ (l : List Shot) (found : Bool),
      (offsetLoop time total found l).map (fun s => s.start)
        = l.map (fun s => if time < s.start then s.start + total else s.start) := by
  intro l
  induction l with
  | nil => intro found; rfl
  | cons s rest ih =>
    intro found
    rw [offsetLoop]
    by_cases h1 : ¬found = true ∧ s.start ≤ time ∧ time ≤ s.stop
    · rw [if_pos h1, List.map_cons, List.map_cons, if_neg (by omega : ¬ time < s.start), ih true]
      rfl
    · rw [if_neg h1]
      by_cases h2 : s.start > time
      · rw [if_pos h2, List.map_cons, List.map_cons, if_pos h2, ih found]
        rfl
      · rw [if_neg h2, List.map_cons, List.map_cons, if_neg (by omega : ¬ time < s.start), ih found]

theorem offsetLoop_sorted (time total : Int) (l : List Shot)
    (hs : SortedByStart l) (htot : 0 ≤ total) :
    SortedByStart (offsetLoop time total false l) := by
  have h1 : ((offsetLoop time total false l).map (fun s => s.start)).Pairwise (· ≤ ·) := by
    rw [offsetLoop_starts, List.pairwise_map]
    refine List.Pairwise.imp ?_ hs
    intro a b hab
    unfold shotLE at hab
    split <;> split <;> omega
  rw [List.pairwise_map] at h1
  exact h1

/-! # The gap-resolution pass -/

theorem gapPassAux_wf :
    ∀ (rest : List Shot) (prev : Shot), WFShots rest → WFShots (gapPassAux prev rest) := by
  intro rest
  induction rest with
  | nil => intro prev _ s hs; exact absurd hs (List.not_mem_nil s)
  | cons b r ih =>
    intro prev h s hs
    have hr : WFShots r := fun x hx => h x (by simp [hx])
    rw [gapPassAux] at hs
    split at hs
    · rcases List.mem_cons.mp hs with heq | hs
      · subst heq
        exact Shot.move_wf b _ (h b (by simp))
      · exact ih _ hr s hs
    · rcases List.mem_cons.mp hs with heq | hs
      · subst heq
        exact h _ (by simp)
      · exact ih _ hr s hs

/-- After the pass, consecutive shots are separated by at most one frame:
`next.start ≤ prev.stop + 1` (no positive gap).  No hypotheses needed —
each step either leaves a pair with no gap or closes the gap exactly. -/
theorem gapPassAux_chain :
    ∀ (rest : List Shot) (prev : Shot),
      List.Chain' (fun a b => b.start ≤ a.stop + 1) (prev :: gapPassAux prev rest) := by
  intro rest
  induction rest with
  | nil => intro prev; simp [gapPassAux]
  | cons b r ih =>
    intro prev
    rw [gapPassAux]
    split
    · next hlt =>
      refine List.chain'_cons.mpr ⟨?_, ih _⟩
      rw [Shot.move_default_start]
      omega
    · next hge =>
      exact List.chain'_cons.mpr ⟨by omega, ih _⟩

/-- With well-formed intervals and sorted input, the pass keeps the list
sorted by start. -/
theorem gapPassAux_sorted :
    ∀ (rest : List Shot) (prev : Shot), WFShots (prev :: rest) →
      List.Chain' shotLE (prev :: rest) →
      List.Chain' shotLE (prev :: gapPassAux prev rest) := by
  intro rest
  induction rest with
  | nil => intro prev _ _; simp [gapPassAux]
  | cons b r ih =>
    intro prev hwf hchain
    rw [List.chain'_cons] at hchain
    have hwfp : prev.start ≤ prev.stop := hwf prev (by simp)
    have hwfb : b.start ≤ b.stop := hwf b (by simp)
    rw [gapPassAux]
    split
    · next hlt =>
      refine List.chain'_cons.mpr ⟨?_, ?_⟩
      · show prev.start ≤ (b.move (-(b.start - prev.stop) + 1) true true).start
        rw [Shot.move_default_start]
        omega
      · refine ih _ ?_ ?_
        · intro x hx
          rcases List.mem_cons.mp hx with heq | hx
          · subst heq
            exact Shot.move_wf b _ hwfb
          · exact hwf x (by simp [hx])
        · have hble : (b.move (-(b.start - prev.stop) + 1) true true).start ≤ b.start := by
            rw [Shot.move_default_start]
            omega
          cases r with
          | nil => simp
          | cons c r' =>
            rw [List.chain'_cons] at hchain ⊢
            exact ⟨le_trans hble hchain.2.1, hchain.2.2⟩
    · next hge =>
      refine List.chain'_cons.mpr ⟨hchain.1, ?_⟩
      exact ih _ (fun x hx => hwf x (by simp [hx])) hchain.2

/-- A list already free of positive gaps is not changed by the pass. -/
theorem gapPassAux_noop :
    ∀ (rest : List Shot) (prev : Shot),
      List.Chain' (fun a b => b.start ≤ a.stop + 1) (prev :: rest) → gapPassAux prev rest = rest := by
  intro rest
  induction rest with
  | nil => intro prev _; rfl
  | cons b r ih =>
    intro prev hchain
    rw [List.chain'_cons] at hchain
    have hnot : ¬ prev.stop < b.start - 1 := by omega
    rw [gapPassAux, if_neg hnot, ih b hchain.2]

/-- Starting from a strictly non-overlapping configuration, the pass makes
every consecutive pair abut exactly: `next.start = prev.stop + 1`. -/
theorem gapPassAux_abut :
    ∀ (rest : List Shot) (prev : Shot),
      List.Chain' (fun a b => a.stop < b.start) (prev :: rest) →
      List.Chain' (fun a b => b.start = a.stop + 1) (prev :: gapPassAux prev rest) := by
  intro rest
  induction rest with
  | nil => intro prev _; simp [gapPassAux]
  | cons b r ih =>
    intro prev hchain
    rw [List.chain'_cons] at hchain
    rw [gapPassAux]
    split
    · next hlt =>
      refine List.chain'_cons.mpr ⟨?_, ?_⟩
      · rw [Shot.move_default_start]
        show b.start + (-(b.start - prev.stop) + 1) = prev.stop + 1
        omega
      · refine ih _ ?_
        have hble : (b.move (-(b.start - prev.stop) + 1) true true).stop ≤ b.stop := by
          rw [Shot.move_default_stop]
          omega
        cases r with
        | nil => simp
        | cons c r' =>
          rw [List.chain'_cons] at hchain ⊢
          exact ⟨lt_of_le_of_lt hble hchain.2.1, hchain.2.2⟩
    · next hge =>
      refine List.chain'_cons.mpr ⟨by omega, ?_⟩
      exact ih _ hchain.2

theorem gapPass_wf (l : List Shot) (h : WFShots l) : WFShots (gapPass l) := by
  cases l with
  | nil => exact h
  | cons a rest =>
    intro s hs
    rw [gapPass] at hs
    rcases List.mem_cons.mp hs with heq | hs
    · subst heq
      exact h _ (by simp)
    · exact gapPassAux_wf rest a (fun x hx => h x (by simp [hx])) s hs

theorem gapPass_chain (l : List Shot) :
    List.Chain' (fun a b => b.start ≤ a.stop + 1) (gapPass l) := by
  cases l with
  | nil => simp [gapPass]
  | cons a rest => exact gapPassAux_chain rest a

theorem gapPass_sorted (l : List Shot) (hwf : WFShots l) (hs : List.Chain' shotLE l) :
    List.Chain' shotLE (gapPass l) := by
  cases l with
  | nil => simp [gapPass]
  | cons a rest => exact gapPassAux_sorted rest a hwf hs

theorem gapPass_noop (l : List Shot)
    (h : List.Chain' (fun a b => b.start ≤ a.stop + 1) l) : gapPass l = l := by
  cases l with
  | nil => rfl
  | cons a rest => rw [gapPass, gapPassAux_noop rest a h]

theorem sortedByStart_chain {l : List Shot} (h : SortedByStart l) : List.Chain' shotLE l :=
  List.chain'_iff_pairwise.mpr h

/-- On well-formed, sorted input, `resolve_gaps_between_shots` is the bare
pass: the pass's output is already sorted, so the final `sort_shots` is
the identity. -/
theorem resolve_gaps_eq_pass (q : SequencerSequence) (hwf : WFShots q.shots)
    (hs : SortedByStart q.shots) :
    q.resolve_gaps_between_shots = { q with shots := gapPass q.shots } := by
  rw [SequencerSequence.resolve_gaps_between_shots, SequencerSequence.sort_shots]
  have hsorted : SortedByStart (gapPass q.shots) :=
    sortedByStart_of_chain (gapPass_sorted _ hwf (sortedByStart_chain hs))
  simp only
  rw [List.Sorted.insertionSort_eq hsorted]

/-- C2 (amended): on a sorted sequence of well-formed shots,
`resolve_gaps_between_shots` closes every gap of at least one frame by
moving the later shot back to `prev.stop + 1`; afterwards no adjacent pair
has a gap greater than zero frames (`shot[i+1].start ≤ shot[i].stop + 1`),
the pass is idempotent, and — when the initial state has no overlapping
pair (`shot[i].stop < shot[i+1].start` for all adjacent pairs, i.e. the
shots are gapped or already abutting) — afterwards
`shot[i+1].start = shot[i].stop + 1` for every adjacent pair.  (The
equality cannot hold for overlapping initial states: the pass never moves
a shot of an overlapping pair.)  For `A=[1,10]`, `B=[15,20]` the result is
`B=[11,16]`. -/
theorem claim_C2_resolve_gaps :
    (∀ q : SequencerSequence, WFShots q.shots → SortedByStart q.shots →
      List.Chain' (fun a b => b.start ≤ a.stop + 1) q.resolve_gaps_between_shots.shots ∧
      q.resolve_gaps_between_shots.resolve_gaps_between_shots = q.resolve_gaps_between_shots ∧
      (List.Chain' (fun a b => a.stop < b.start) q.shots →
        List.Chain' (fun a b => b.start = a.stop + 1) q.resolve_gaps_between_shots.shots)) ∧
    ((seqOfShots [mkTestShot "SQ0010_SH0010" 1 10, mkTestShot "SQ0010_SH0020" 15 20]).resolve_gaps_between_shots.shots.map
        (fun s => (s.start, s.stop)) = [(1, 10), (11, 16)] ∧
      (seqOfShots [mkTestShot "SQ0010_SH0010" 1 10, mkTestShot "SQ0010_SH0020" 15 20]).resolve_gaps_between_shots.shots.head?
        = some (mkTestShot "SQ0010_SH0010" 1 10)) := by
  constructor
  · intro q hwf hsorted
    rw [resolve_gaps_eq_pass q hwf hsorted]
    refine ⟨gapPass_chain q.shots, ?_, ?_⟩
    · have hwf' : WFShots (gapPass q.shots) := gapPass_wf _ hwf
      have hs' : SortedByStart (gapPass q.shots) :=
        sortedByStart_of_chain (gapPass_sorted _ hwf (sortedByStart_chain hsorted))
      rw [resolve_gaps_eq_pass _ hwf' hs']
      simp only
      rw [gapPass_noop _ (gapPass_chain q.shots)]
    · intro hnov
      cases hq : q.shots with
      | nil => simp [gapPass]
      | cons a rest =>
        rw [hq] at hnov
        simp only [hq, gapPass]
        exact gapPassAux_abut rest a hnov
  · exact ⟨by decide, by decide⟩

/-- Counterexample to C2 as stated: for the overlapping (hence
"connected or overlapping") sorted initial state `A=[1,10]`, `B=[5,15]`,
`resolve_gaps_between_shots` changes nothing, so afterwards
`B.start = 5 ≠ A.stop + 1 = 11` — the claimed equality
`shot[i+1].start == shot[i].stop + 1` fails. -/
theorem claim_C2_counterexample :
    WFShots (seqOfShots [mkTestShot "SQ0010_SH0010" 1 10, mkTestShot "SQ0010_SH0020" 5 15]).shots ∧
    SortedByStart (seqOfShots [mkTestShot "SQ0010_SH0010" 1 10, mkTestShot "SQ0010_SH0020" 5 15]).shots ∧
    (seqOfShots [mkTestShot "SQ0010_SH0010" 1 10, mkTestShot "SQ0010_SH0020" 5 15]).resolve_gaps_between_shots.shots.map
      (fun s => (s.start, s.stop)) = [(1, 10), (5, 15)] ∧
    ¬ List.Chain' (fun a b => b.start = a.stop + 1)
      (seqOfShots [mkTestShot "SQ0010_SH0010" 1 10, mkTestShot "SQ0010_SH0020" 5 15]).resolve_gaps_between_shots.shots := by
  refine ⟨by decide, by decide, by decide, ?_⟩
  intro h
  rw [show (seqOfShots [mkTestShot "SQ0010_SH0010" 1 10, mkTestShot "SQ0010_SH0020" 5 15]).resolve_gaps_between_shots.shots
      = [mkTestShot "SQ0010_SH0010" 1 10, mkTestShot "SQ0010_SH0020" 5 15] from by decide] at h
  rw [List.chain'_cons] at h
  have := h.1
  revert this
  decide

/-- Witness for the amended C2 at the concrete gapped pair `A=[1,10]`,
`B=[15,20]`. -/
theorem claim_C2_witness :
    List.Chain' (fun a b => b.start ≤ a.stop + 1)
      (seqOfShots [mkTestShot "SQ0010_SH0010" 1 10, mkTestShot "SQ0010_SH0020" 15 20]).resolve_gaps_between_shots.shots ∧
    (seqOfShots [mkTestShot "SQ0010_SH0010" 1 10, mkTestShot "SQ0010_SH0020" 15 20]).resolve_gaps_between_shots.resolve_gaps_between_shots
      = (seqOfShots [mkTestShot "SQ0010_SH0010" 1 10, mkTestShot "SQ0010_SH0020" 15 20]).resolve_gaps_between_shots :=
  ⟨(claim_C2_resolve_gaps.1
      (seqOfShots [mkTestShot "SQ0010_SH0010" 1 10, mkTestShot "SQ0010_SH0020" 15 20])
      (by decide) (by decide)).1,
   (claim_C2_resolve_gaps.1
      (seqOfShots [mkTestShot "SQ0010_SH0010" 1 10, mkTestShot "SQ0010_SH0020" 15 20])
      (by decide) (by decide)).2.1⟩

/-- C3: `get_shots_at_time(t)` returns exactly the shots whose closed
interval `[start, stop]` contains `t` (inclusive at both ends): it is the
order-preserving filter of the sequence's shot list, so its members are
precisely the shots containing `t`, in the sequence's sort order, possibly
empty and possibly several when intervals overlap.  For the three
non-overlapping shots `[1,10]`, `[11,20]`, `[21,30]`, the query at
`t = 20` returns only the second shot. -/
theorem claim_C3_get_shots_at_time :
    (∀ (q : SequencerSequence) (t : Int),
      q.get_shots_at_time t = q.shots.filter (fun s => decide (s.start ≤ t ∧ t ≤ s.stop)) ∧
      ∀ s : Shot, s ∈ q.get_shots_at_time t ↔ s ∈ q.shots ∧ s.start ≤ t ∧ t ≤ s.stop) ∧
    (seqOfShots [mkTestShot "SQ0010_SH0010" 1 10, mkTestShot "SQ0010_SH0020" 11 20,
        mkTestShot "SQ0010_SH0030" 21 30]).get_shots_at_time 20
      = [mkTestShot "SQ0010_SH0020" 11 20] := by
  refine ⟨fun q t => ⟨get_shots_at_time_eq_filter q t, fun s => ?_⟩, by decide⟩
  rw [get_shots_at_time_eq_filter, List.mem_filter]
  simp

/-- C4 (amended): after `do_create_shot` (insert), `delete_shot_at_time`
(delete, on a sorted sequence) and both resolve passes, the shot
collection is sorted ascending by `start`; after the compound
`offset_frame_of_shot_at_time` it is sorted for every *nonnegative* total
(`offset_end_frame` never changes a cached start).  A negative total can
move the "next" shots before earlier ones, and the source performs no
re-sort there, so for negative totals the invariant fails (see the
counterexample), which is why positional queries must not be trusted
before a re-sort. -/
theorem claim_C4_sorted_after_mutations :
    (∀ (q : SequencerSequence) (name : PyStr) (t len : Int) (q' : SequencerSequence),
        Backend.do_create_shot q name t len = .ok q' → SortedByStart q'.shots) ∧
    (∀ (q : SequencerSequence) (t : Int) (q' : SequencerSequence), SortedByStart q.shots →
        q.delete_shot_at_time t = .ok q' → SortedByStart q'.shots) ∧
    (∀ q : SequencerSequence, SortedByStart q.resolve_overlapping_shots.shots) ∧
    (∀ q : SequencerSequence, SortedByStart q.resolve_gaps_between_shots.shots) ∧
    (∀ (q : SequencerSequence) (t total : Int) (q' : SequencerSequence), SortedByStart q.shots →
        0 ≤ total → q.offset_frame_of_shot_at_time t total = .ok q' → SortedByStart q'.shots) := by
  refine ⟨?_, ?_, ?_, ?_, ?_⟩
  · intro q name t len q' h
    rw [Backend.do_create_shot] at h
    cases hc : SequencerShot.create q.shots name t len with
    | error e => rw [hc] at h; exact absurd h (by simp [Bind.bind, Except.bind])
    | ok shot =>
      rw [hc] at h
      simp only [Bind.bind, Except.bind, Except.ok.injEq] at h
      subst h
      exact List.sorted_insertionSort shotLE _
  · intro q t q' hs h
    rw [SequencerSequence.delete_shot_at_time] at h
    cases hg : q.get_shots_at_time t with
    | nil => rw [hg] at h; exact absurd h (by simp)
    | cons a r =>
      rw [hg] at h
      simp only [Except.ok.injEq] at h
      subst h
      exact hs.sublist (q.shots.erase_sublist a)
  · intro q
    exact List.sorted_insertionSort shotLE _
  · intro q
    exact List.sorted_insertionSort shotLE _
  · intro q t total q' hs htot h
    rw [SequencerSequence.offset_frame_of_shot_at_time] at h
    cases hg : q.get_shots_at_time t with
    | nil => rw [hg] at h; exact absurd h (by simp)
    | cons a r =>
      rw [hg] at h
      simp only [Except.ok.injEq] at h
      subst h
      exact offsetLoop_sorted t total q.shots hs htot

/-- Counterexample to C4 as stated: starting from the sorted sequence
`[1,10], [11,20]`, the compound `offset_frame_of_shot_at_time(1, -11)`
succeeds but leaves the cached starts `[1, 0]` — no longer sorted
ascending by start (no re-sort is performed). -/
theorem claim_C4_counterexample :
    SortedByStart (seqOfShots [mkTestShot "SQ0010_SH0010" 1 10, mkTestShot "SQ0010_SH0020" 11 20]).shots ∧
    ((seqOfShots [mkTestShot "SQ0010_SH0010" 1 10, mkTestShot "SQ0010_SH0020" 11 20]).offset_frame_of_shot_at_time 1 (-11)).map
      (fun q => q.shots.map (fun s => s.start)) = .ok [1, 0] ∧
    ((seqOfShots [mkTestShot "SQ0010_SH0010" 1 10, mkTestShot "SQ0010_SH0020" 11 20]).offset_frame_of_shot_at_time 1 (-11)).map
      (fun q => decide (SortedByStart q.shots)) = .ok false := by
  exact ⟨by decide, by decide, by decide⟩

/-- Witness for the amended C4: deleting the shot at `t = 5` from the
sorted pair leaves a sorted collection. -/
theorem claim_C4_witness :
    SortedByStart (seqOfShots [mkTestShot "SQ0010_SH0020" 11 20]).shots :=
  claim_C4_sorted_after_mutations.2.1
    (seqOfShots [mkTestShot "SQ0010_SH0010" 1 10, mkTestShot "SQ0010_SH0020" 11 20]) 5
    (seqOfShots [mkTestShot "SQ0010_SH0020" 11 20]) (by decide) (by decide)

/-- C5 (code defect): `Backend.delete_shot` (and
`delete_shot_at_time` under it) indexes
`get_shots_at_time(current_time)[0]` *before* any emptiness check, so
when no shot contains the current time the call raises IndexError instead
of showing the "no active shot" warning — the `if not shot:` branch below
the indexing is unreachable for the empty case.  Evaluated at the failing
input: one shot `[1,10]`, delete at time 20. -/
theorem claim_C5_delete_shot_crash :
    Backend.delete_shot (seqOfShots [mkTestShot "SQ0010_SH0010" 1 10]) 20 true
      = .error .indexError ∧
    Backend.delete_shot (seqOfShots [mkTestShot "SQ0010_SH0010" 1 10]) 20 false
      = .error .indexError ∧
    (seqOfShots [mkTestShot "SQ0010_SH0010" 1 10]).delete_shot_at_time 20
      = .error .indexError ∧
    (seqOfShots [mkTestShot "SQ0010_SH0010" 1 10]).get_shots_at_time 20 = [] := by
  exact ⟨by decide, by decide, by decide, by decide⟩

/-! # Structure of `split("_")` and the name validator -/

/-- A string without underscores splits into itself alone. -/
theorem pySplitUnd_no_und (l : PyStr) (h : '_' ∉ l) : pySplitUnd l = [l] := by
  induction l with
  | nil => rfl
  | cons c rest ih =>
    have hc : ¬ c = '_' := fun hh => h (by simp [hh])
    rw [pySplitUnd]
    simp only [if_neg hc]
    rw [ih (fun hh => h (by simp [hh]))]

/-- Splitting distributes over an underscore-free prefix. -/
theorem pySplitUnd_append (p : PyStr) (l : PyStr) (h : '_' ∉ p) :
    pySplitUnd (p ++ l) = (p ++ (pySplitUnd l).headD []) :: (pySplitUnd l).tail := by
  induction p with
  | nil =>
    simp only [List.nil_append]
    cases hl : pySplitUnd l with
    | nil => exact absurd hl (pySplitUnd_ne_nil l)
    | cons a t => rfl
  | cons c p' ih =>
    have hc : ¬ c = '_' := fun hh => h (by simp [hh])
    rw [List.cons_append, pySplitUnd]
    simp only [if_neg hc]
    rw [ih (fun hh => h (by simp [hh]))]
    rfl

/-- Inversion: a two-part split means exactly one underscore, separating
the two underscore-free parts. -/
theorem pySplitUnd_eq_single (l : PyStr) :
    ∀ p, pySplitUnd l = [p] → l = p ∧ '_' ∉ p := by
  induction l with
  | nil =>
    intro p hp
    rw [pySplitUnd] at hp
    simp only [List.cons.injEq, and_true] at hp
    subst hp
    exact ⟨rfl, by simp⟩
  | cons c rest ih =>
    intro p hp
    rw [pySplitUnd] at hp
    by_cases hc : c = '_'
    · rw [if_pos hc] at hp
      simp only [List.cons.injEq] at hp
      exact absurd hp.2 (pySplitUnd_ne_nil rest)
    · rw [if_neg hc] at hp
      cases hr : pySplitUnd rest with
      | nil => exact absurd hr (pySplitUnd_ne_nil rest)
      | cons h t =>
        rw [hr] at hp
        simp only [List.cons.injEq] at hp
        obtain ⟨hp1, hp2⟩ := hp
        subst hp2
        obtain ⟨hrest, hund⟩ := ih h hr
        subst hrest
        subst hp1
        refine ⟨rfl, ?_⟩
        intro hm
        rcases List.mem_cons.mp hm with hh | hh
        · exact hc hh.symm
        · exact hund hh

theorem pySplitUnd_eq_pair (l : PyStr) :
    ∀ p q, pySplitUnd l = [p, q] → l = p ++ '_' :: q ∧ '_' ∉ p ∧ '_' ∉ q := by
  induction l with
  | nil =>
    intro p q hp
    rw [pySplitUnd] at hp
    simp at hp
  | cons c rest ih =>
    intro p q hp
    rw [pySplitUnd] at hp
    by_cases hc : c = '_'
    · rw [if_pos hc] at hp
      simp only [List.cons.injEq] at hp
      obtain ⟨hp1, hp2⟩ := hp
      subst hp1
      obtain ⟨hrest, hund⟩ := pySplitUnd_eq_single rest q hp2
      subst hrest
      subst hc
      exact ⟨rfl, by simp, hund⟩
    · rw [if_neg hc] at hp
      cases hr : pySplitUnd rest with
      | nil => exact absurd hr (pySplitUnd_ne_nil rest)
      | cons h t =>
        rw [hr] at hp
        simp only [List.cons.injEq] at hp
        obtain ⟨hp1, hp2⟩ := hp
        subst hp1
        have : pySplitUnd rest = [h, q] := by
          rw [hr]
          rw [hp2]
        obtain ⟨hrest, hu1, hu2⟩ := ih h q this
        subst hrest
        refine ⟨rfl, ?_, hu2⟩
        intro hm
        rcases List.mem_cons.mp hm with hh | hh
        · exact hc hh.symm
        · exact hu1 hh

theorem digit_ne_und {c : Char} (h : c.isDigit = true) : ¬ c = '_' := by
  intro heq
  subst heq
  exact absurd h (by decide)

/-- The validator either returns the name or raises `ValueError`. -/
theorem valid_shot_name_cases (name : PyStr) :
    valid_shot_name name = .ok name ∨ valid_shot_name name = .error .valueError := by
  rw [valid_shot_name]
  cases hs : pySplitUnd name with
  | nil => exact Or.inr rfl
  | cons a t =>
    cases t with
    | nil => exact Or.inr rfl
    | cons b t2 =>
      cases t2 with
      | nil =>
        dsimp only
        by_cases h1 : (!startsSQ a || !startsSH b) = true
        · rw [if_pos h1]
          exact Or.inr rfl
        · rw [if_neg h1]
          by_cases h2 : (!pyIsDigitStr (List.drop 2 a) || !pyIsDigitStr (List.drop 2 b)) = true
          · rw [if_pos h2]
            exact Or.inr rfl
          · rw [if_neg h2]
            exact Or.inl rfl
      | cons c t3 => exact Or.inr rfl

theorem startsSQ_eq_true {l : PyStr} : startsSQ l = true ↔ ∃ d, l = 'S' :: 'Q' :: d := by
  rw [startsSQ, decide_eq_true_eq]
  cases l with
  | nil => simp
  | cons c1 l1 =>
    cases l1 with
    | nil => simp
    | cons c2 l2 =>
      simp only [List.take_succ_cons, List.take_zero]
      constructor
      · intro h
        simp only [List.cons.injEq, and_true] at h
        exact ⟨l2, by rw [h.1, h.2]⟩
      · rintro ⟨d, hd⟩
        simp only [List.cons.injEq] at hd
        rw [hd.1, hd.2.1]

theorem startsSH_eq_true {l : PyStr} : startsSH l = true ↔ ∃ d, l = 'S' :: 'H' :: d := by
  rw [startsSH, decide_eq_true_eq]
  cases l with
  | nil => simp
  | cons c1 l1 =>
    cases l1 with
    | nil => simp
    | cons c2 l2 =>
      simp only [List.take_succ_cons, List.take_zero]
      constructor
      · intro h
        simp only [List.cons.injEq, and_true] at h
        exact ⟨l2, by rw [h.1, h.2]⟩
      · rintro ⟨d, hd⟩
        simp only [List.cons.injEq] at hd
        rw [hd.1, hd.2.1]

theorem pyIsDigitStr_eq_true {l : PyStr} :
    pyIsDigitStr l = true ↔ l ≠ [] ∧ ∀ c ∈ l, c.isDigit = true := by
  rw [pyIsDigitStr]
  simp [List.isEmpty_iff, List.all_eq_true]

/-- C8 (amended): the validator accepts a name exactly when it has the
form `SQ<digits>_SH<digits>` with *at least one* digit in each group (the
source checks `startswith` and `isdigit`, not a fixed width of 4); every
accepted name is returned unchanged, and every other input fails with
`ValueError` (the spec's InvalidName).  `"SQ0010_SH0010"` passes and
`"BADNAME"` fails, as claimed, but so does e.g. `"SQ1_SH1"`, which the
claimed 4-digit pattern `SQ####_SH####` rejects. -/
theorem claim_C8_valid_shot_name :
    ∀ name : PyStr,
      (valid_shot_name name = .ok name ↔ RelaxedShotName name) ∧
      (¬ RelaxedShotName name → valid_shot_name name = .error .valueError) := by
  have main : ∀ name : PyStr, valid_shot_name name = .ok name ↔ RelaxedShotName name := by
    intro name
    constructor
    · intro hok
      rw [valid_shot_name] at hok
      cases hs : pySplitUnd name with
      | nil => rw [hs] at hok; exact absurd hok (by simp)
      | cons a t =>
        cases t with
        | nil => rw [hs] at hok; exact absurd hok (by simp)
        | cons b t2 =>
          cases t2 with
          | cons c t3 => rw [hs] at hok; exact absurd hok (by simp)
          | nil =>
            rw [hs] at hok
            dsimp only at hok
            by_cases h1 : (!startsSQ a || !startsSH b) = true
            · rw [if_pos h1] at hok; exact absurd hok (by simp)
            · rw [if_neg h1] at hok
              by_cases h2 : (!pyIsDigitStr (List.drop 2 a) || !pyIsDigitStr (List.drop 2 b)) = true
              · rw [if_pos h2] at hok; exact absurd hok (by simp)
              · simp only [Bool.or_eq_true, Bool.not_eq_true', not_or, Bool.not_eq_false] at h1 h2
                obtain ⟨d₁, ha⟩ := startsSQ_eq_true.mp h1.1
                obtain ⟨d₂, hb⟩ := startsSH_eq_true.mp h1.2
                have hda := pyIsDigitStr_eq_true.mp h2.1
                have hdb := pyIsDigitStr_eq_true.mp h2.2
                rw [ha] at hda
                rw [hb] at hdb
                simp only [List.drop_succ_cons, List.drop_zero] at hda hdb
                obtain ⟨hname, _, _⟩ := pySplitUnd_eq_pair name a b hs
                refine ⟨d₁, d₂, ?_, hda.1, hdb.1, hda.2, hdb.2⟩
                rw [hname, ha, hb]
                simp
    · rintro ⟨d₁, d₂, rfl, hne1, hne2, hd1, hd2⟩
      have hu1 : '_' ∉ 'S' :: 'Q' :: d₁ := by
        intro hm
        rcases List.mem_cons.mp hm with hh | hm
        · exact absurd hh (by decide)
        rcases List.mem_cons.mp hm with hh | hm
        · exact absurd hh (by decide)
        · exact digit_ne_und (hd1 _ hm) rfl
      have hu2 : '_' ∉ 'S' :: 'H' :: d₂ := by
        intro hm
        rcases List.mem_cons.mp hm with hh | hm
        · exact absurd hh (by decide)
        rcases List.mem_cons.mp hm with hh | hm
        · exact absurd hh (by decide)
        · exact digit_ne_und (hd2 _ hm) rfl
      have hsplit : pySplitUnd ('S' :: 'Q' :: (d₁ ++ '_' :: 'S' :: 'H' :: d₂))
          = ['S' :: 'Q' :: d₁, 'S' :: 'H' :: d₂] := by
        have : 'S' :: 'Q' :: (d₁ ++ '_' :: 'S' :: 'H' :: d₂)
            = ('S' :: 'Q' :: d₁) ++ '_' :: ('S' :: 'H' :: d₂) := by simp
        rw [this, pySplitUnd_append _ _ hu1]
        have hund : pySplitUnd ('_' :: ('S' :: 'H' :: d₂)) = [] :: pySplitUnd ('S' :: 'H' :: d₂) := by
          rw [pySplitUnd]
          simp
        rw [hund, pySplitUnd_no_und _ hu2]
        simp
      rw [valid_shot_name, hsplit]
      dsimp only
      have hsq : startsSQ ('S' :: 'Q' :: d₁) = true := startsSQ_eq_true.mpr ⟨d₁, rfl⟩
      have hsh : startsSH ('S' :: 'H' :: d₂) = true := startsSH_eq_true.mpr ⟨d₂, rfl⟩
      have hdig1 : pyIsDigitStr (List.drop 2 ('S' :: 'Q' :: d₁)) = true := by
        simp only [List.drop_succ_cons, List.drop_zero]
        exact pyIsDigitStr_eq_true.mpr ⟨hne1, hd1⟩
      have hdig2 : pyIsDigitStr (List.drop 2 ('S' :: 'H' :: d₂)) = true := by
        simp only [List.drop_succ_cons, List.drop_zero]
        exact pyIsDigitStr_eq_true.mpr ⟨hne2, hd2⟩
      rw [hsq, hsh, hdig1, hdig2]
      simp
  intro name
  refine ⟨main name, fun hn => ?_⟩
  rcases valid_shot_name_cases name with h | h
  · exact absurd ((main name).mp h) hn
  · exact h

/-- Counterexample to C8 as stated: `"SQ1_SH1"` does not match the
claimed pattern `SQ####_SH####` (4 digits each), yet the validator
accepts it; the claim's two quoted examples do behave as stated. -/
theorem claim_C8_counterexample :
    valid_shot_name (pyLit "SQ1_SH1") = .ok (pyLit "SQ1_SH1") ∧
    specShotNamePattern (pyLit "SQ1_SH1") = false ∧
    specShotNamePattern (pyLit "SQ0010_SH0010") = true ∧
    valid_shot_name (pyLit "SQ0010_SH0010") = .ok (pyLit "SQ0010_SH0010") ∧
    valid_shot_name (pyLit "BADNAME") = .error .valueError := by
  exact ⟨by decide, by decide, by decide, by decide, by decide⟩

/-- Witness for the amended C8 at `"SQ0010_SH0010"` (accepted) and
`"BADNAME"` (rejected with ValueError). -/
theorem claim_C8_witness :
    valid_shot_name (pyLit "SQ0010_SH0010") = .ok (pyLit "SQ0010_SH0010") ∧
    valid_shot_name (pyLit "BADNAME") = .error .valueError :=
  ⟨(claim_C8_valid_shot_name (pyLit "SQ0010_SH0010")).1.mpr
      ⟨pyLit "0010", pyLit "0010", by decide, by decide, by decide, by decide, by decide⟩,
    (claim_C8_valid_shot_name (pyLit "BADNAME")).2 (by
      rintro ⟨d₁, d₂, habs, -, -, -, -⟩
      have : ('B' : Char) = 'S' := List.head_eq_of_cons_eq habs
      exact absurd this (by decide))⟩

/-- C10: `Shot.move` unconditionally calls `refresh`, and `refresh`
caches the node's `.shot` attribute wrapped in a one-element tuple
(`self.name = (cmds.getAttr(...),)`), so after any move — whatever the
`move_bookmark`/`move_camera` flags — the shot's `name` field is the
tuple `(n,)` of the stored name string `n`, never a plain string; any
later comparison with a plain string is therefore unequal. -/
theorem claim_C10_move_name_tuple :
    ∀ (s : Shot) (offset : Int) (mb mc : Bool),
      (s.move offset mb mc).name = PyNameVal.tup1 s.node.shot ∧
      ∀ str : PyStr, (s.move offset mb mc).name ≠ PyNameVal.str str := by
  intro s o mb mc
  have h1 : (s.move o mb mc).name = PyNameVal.tup1 s.node.shot := by
    cases mb <;> cases mc <;> rfl
  refine ⟨h1, fun str h => ?_⟩
  rw [h1] at h
  exact PyNameVal.noConfusion h

/-- Witness for C10 at a concrete shot and offset. -/
theorem claim_C10_witness :
    ((mkTestShot "SQ0010_SH0010" 1 10).move 5 true true).name
        = PyNameVal.tup1 (pyLit "SQ0010_SH0010") ∧
    ((mkTestShot "SQ0010_SH0010" 1 10).move 5 true true).name
        ≠ PyNameVal.str (pyLit "SQ0010_SH0010") :=
  ⟨(claim_C10_move_name_tuple (mkTestShot "SQ0010_SH0010" 1 10) 5 true true).1,
   (claim_C10_move_name_tuple (mkTestShot "SQ0010_SH0010" 1 10) 5 true true).2 (pyLit "SQ0010_SH0010")⟩

/-! # Focus / defocus control logic -/

/-- Evaluation of `Backend.defocus_active_shot` on a non-empty sequence:
widen when any of the three focus predicates holds, frame-all otherwise. -/
theorem defocus_active_shot_eval (q : SequencerSequence) (t : Int) (w : PlaybackWindow)
    (s₀ : Shot) (rest : List Shot) (hq : q.shots = s₀ :: rest) :
    Backend.defocus_active_shot q t w =
      .ok (if (decide (s₀.start = w.minTime ∧ (lastShot s₀ rest).stop = w.maxTime)
              || q.is_shot_focus_at_time t w
              || decide (s₀.start > w.minTime ∧ (lastShot s₀ rest).stop < w.maxTime)) = true
           then extraDefocus w
           else frameAllBookmark q.shots w) := by
  rw [Backend.defocus_active_shot, SequencerSequence.is_sequence_focus,
    SequencerSequence.is_sequence_fully_defocus, hq]
  cases h1 : decide (s₀.start = w.minTime ∧ (lastShot s₀ rest).stop = w.maxTime) with
  | true =>
    simp only [Bind.bind, Except.bind, h1, Bool.true_or, if_true]
  | false =>
    cases h2 : q.is_shot_focus_at_time t w with
    | true =>
      simp only [Bind.bind, Except.bind, h1, h2, Bool.false_or, Bool.true_or, if_true]
      simp
    | false =>
      cases h3 : decide (s₀.start > w.minTime ∧ (lastShot s₀ rest).stop < w.maxTime) with
      | true =>
        simp only [Bind.bind, Except.bind, h1, h2, h3, Bool.false_or, if_true]
        simp
      | false =>
        simp only [Bind.bind, Except.bind, h1, h2, h3, Bool.false_or, if_false]
        simp

/-- The code's shot-focus test matches the claim's "some shot containing
the current time whose bounds equal the window". -/
theorem is_shot_focus_iff (q : SequencerSequence) (t : Int) (w : PlaybackWindow) :
    q.is_shot_focus_at_time t w = true ↔
      ∃ s ∈ q.shots, s.start ≤ t ∧ t ≤ s.stop ∧ w = ⟨s.start, s.stop⟩ := by
  rw [SequencerSequence.is_shot_focus_at_time, List.any_eq_true]
  constructor
  · rintro ⟨s, hmem, hp⟩
    rw [get_shots_at_time_eq_filter, List.mem_filter] at hmem
    rw [decide_eq_true_eq] at hp
    have hc := of_decide_eq_true hmem.2
    cases w
    exact ⟨s, hmem.1, hc.1, hc.2, by simp [hp.1, hp.2]⟩
  · rintro ⟨s, hmem, h1, h2, rfl⟩
    refine ⟨s, ?_, by simp⟩
    rw [get_shots_at_time_eq_filter, List.mem_filter]
    exact ⟨hmem, decide_eq_true ⟨h1, h2⟩⟩

/-- C9: for a non-empty sequence, `defocus_active_shot` widens the
playback window by exactly 24 on both ends when the window equals the
whole-sequence bounds (`[first.start, last.stop]`), or equals the bounds
of some shot containing the current time, or is strictly wider than all
shots on both ends (`min < first.start` and `max > last.stop`); in every
other case it resets the window to exactly bound all shots
(`frameAllBookmark`, modelled from the spec as the host call is not part
of the repository). -/
theorem claim_C9_defocus_active_shot :
    ∀ (q : SequencerSequence) (t : Int) (w : PlaybackWindow) (s₀ : Shot) (rest : List Shot),
      q.shots = s₀ :: rest →
      ((w = ⟨s₀.start, (lastShot s₀ rest).stop⟩ ∨
        (∃ s ∈ q.shots, s.start ≤ t ∧ t ≤ s.stop ∧ w = ⟨s.start, s.stop⟩) ∨
        (w.minTime < s₀.start ∧ (lastShot s₀ rest).stop < w.maxTime)) →
          Backend.defocus_active_shot q t w
            = .ok ⟨w.minTime - 24, w.maxTime + 24⟩) ∧
      (¬ (w = ⟨s₀.start, (lastShot s₀ rest).stop⟩ ∨
          (∃ s ∈ q.shots, s.start ≤ t ∧ t ≤ s.stop ∧ w = ⟨s.start, s.stop⟩) ∨
          (w.minTime < s₀.start ∧ (lastShot s₀ rest).stop < w.maxTime)) →
          Backend.defocus_active_shot q t w = .ok (frameAllBookmark q.shots w)) := by
  intro q t w s₀ rest hq
  have heval := defocus_active_shot_eval q t w s₀ rest hq
  have hcond : (decide (s₀.start = w.minTime ∧ (lastShot s₀ rest).stop = w.maxTime)
      || q.is_shot_focus_at_time t w
      || decide (s₀.start > w.minTime ∧ (lastShot s₀ rest).stop < w.maxTime)) = true ↔
      (w = ⟨s₀.start, (lastShot s₀ rest).stop⟩ ∨
        (∃ s ∈ q.shots, s.start ≤ t ∧ t ≤ s.stop ∧ w = ⟨s.start, s.stop⟩) ∨
        (w.minTime < s₀.start ∧ (lastShot s₀ rest).stop < w.maxTime)) := by
    simp only [Bool.or_eq_true, decide_eq_true_eq, is_shot_focus_iff]
    constructor
    · rintro ((⟨ha, hb⟩ | hsf) | ⟨ha, hb⟩)
      · cases w
        exact Or.inl (by simp [ha, hb])
      · exact Or.inr (Or.inl hsf)
      · exact Or.inr (Or.inr ⟨ha, hb⟩)
    · rintro (rfl | hsf | ⟨ha, hb⟩)
      · exact Or.inl (Or.inl ⟨rfl, rfl⟩)
      · exact Or.inl (Or.inr hsf)
      · exact Or.inr ⟨ha, hb⟩
  constructor
  · intro hc
    rw [heval, if_pos (hcond.mpr hc)]
    rfl
  · intro hc
    rw [heval, if_neg ?_]
    rw [← hcond] at hc
    exact fun hh => hc hh

/-- Witness for C9: one shot `[1,10]`, window exactly `[1,10]`, playhead
at 5 — the window is shot-focused, so it widens to `[-23, 34]`. -/
theorem claim_C9_witness :
    Backend.defocus_active_shot (seqOfShots [mkTestShot "SQ0010_SH0010" 1 10]) 5 ⟨1, 10⟩
      = .ok ⟨-23, 34⟩ :=
  (claim_C9_defocus_active_shot (seqOfShots [mkTestShot "SQ0010_SH0010" 1 10]) 5 ⟨1, 10⟩
      (mkTestShot "SQ0010_SH0010" 1 10) [] rfl).1
    (Or.inr (Or.inl ⟨mkTestShot "SQ0010_SH0010" 1 10, by decide, by decide, by decide, rfl⟩))

/-! # Name generation under the `SH###0` convention -/

theorem pySplitUnd_pair_of (p q : PyStr) (hp : '_' ∉ p) (hq : '_' ∉ q) :
    pySplitUnd (p ++ '_' :: q) = [p, q] := by
  rw [pySplitUnd_append p ('_' :: q) hp]
  have h1 : pySplitUnd ('_' :: q) = [] :: pySplitUnd q := by
    rw [pySplitUnd]
    simp
  rw [h1, pySplitUnd_no_und q hq]
  simp

theorem pyInt_digits (l : PyStr) (hne : l ≠ []) (hdig : ∀ c ∈ l, c.isDigit = true) :
    pyInt l = some ((valCh l : Nat) : Int) := by
  cases l with
  | nil => exact absurd rfl hne
  | cons c ds =>
    have hc : c.isDigit = true := hdig c (by simp)
    have hm : ¬ c = '-' := by
      intro hh
      subst hh
      exact absurd hc (by decide)
    have hpl : ¬ c = '+' := by
      intro hh
      subst hh
      exact absurd hc (by decide)
    rw [pyInt, if_neg hm, if_neg hpl]
    have hdv : pyDigitsVal (c :: ds)
        = if (c :: ds).all Char.isDigit then some (valCh (c :: ds)) else none := rfl
    rw [hdv, if_pos (List.all_eq_true.mpr hdig)]
    rfl

/-- Dropping the final `'0'` of the 4-padded suffix `10·k` leaves the
3-padded digits of `k`. -/
theorem zpad4_dropLast (k : Nat) (hk : 1 ≤ k) :
    (zpad 4 (natDigits (10 * k))).dropLast = zpad 3 (natDigits k) := by
  rw [natDigits_mul_ten hk, zpad, zpad]
  have hlen : 4 - (natDigits k ++ ['0']).length = 3 - (natDigits k).length := by
    simp
  rw [hlen, show List.replicate (3 - (natDigits k).length) '0' ++ (natDigits k ++ ['0'])
      = (List.replicate (3 - (natDigits k).length) '0' ++ natDigits k) ++ ['0'] from by simp,
    List.dropLast_concat]

/-- The 3-padded digits of `m` followed by `'0'` are the 4-padded digits
of `10·m`. -/
theorem zpad3_append_zero (m : Nat) (hm : 1 ≤ m) :
    zpad 3 (natDigits m) ++ ['0'] = zpad 4 (natDigits (10 * m)) := by
  rw [natDigits_mul_ten hm, zpad, zpad]
  have hlen : 4 - (natDigits m ++ ['0']).length = 3 - (natDigits m).length := by
    simp
  rw [hlen]
  simp

/-- `int(name.split("_")[-1][2:-1])` on a convention-formed shot name
`p ++ "_SH" ++ zpad4(10·k)` yields exactly `k`. -/
theorem shotNumber_conv (s : Shot) (p : PyStr) (k : Nat) (hp : '_' ∉ p) (hk : 1 ≤ k)
    (hname : s.name = .str (p ++ pyLit "_SH" ++ zpad 4 (natDigits (10 * k)))) :
    shotNumber s = .ok (k : Int) := by
  have hdigits : ∀ c ∈ zpad 4 (natDigits (10 * k)), c.isDigit = true :=
    zpad_all_digit 4 _ (natDigits_all_digit _)
  have hsh : '_' ∉ 'S' :: 'H' :: zpad 4 (natDigits (10 * k)) := by
    intro hm
    rcases List.mem_cons.mp hm with hh | hm
    · exact absurd hh (by decide)
    rcases List.mem_cons.mp hm with hh | hm
    · exact absurd hh (by decide)
    · exact digit_ne_und (hdigits _ hm) rfl
  have hassoc : p ++ pyLit "_SH" ++ zpad 4 (natDigits (10 * k))
      = p ++ '_' :: ('S' :: 'H' :: zpad 4 (natDigits (10 * k))) := by
    simp [pyLit]
  rw [shotNumber, hname, hassoc]
  simp only [pyNameAsStr, Bind.bind, Except.bind]
  rw [pySplitUnd_pair_of p _ hp hsh]
  simp only [List.getLastD_cons, List.getLastD_nil]
  rw [List.drop_succ_cons, List.drop_succ_cons, List.drop_zero, zpad4_dropLast k hk]
  rw [pyInt_digits _ ?_ (zpad_all_digit 3 _ (natDigits_all_digit _))]
  · rw [valCh_zpad, valCh_natDigits]
  · rw [zpad]
    intro hh
    have := congrArg List.length hh
    simp at this
    have hne := natDigits_ne_nil k
    cases hnd : natDigits k with
    | nil => exact hne hnd
    | cons a l => rw [hnd] at this; simp at this

/-- The convention hypothesis on a shot/metadata pair: the shot is named
`prefix ++ "_SH" ++ zpad4(10·k)` with an underscore-free prefix and a
positive step count `k` (suffix `10·k`, the `SH0010, SH0020, …`
convention). -/
def ConvNamed (s : Shot) (pk : PyStr × Nat) : Prop :=
  s.name = PyNameVal.str (pk.1 ++ pyLit "_SH" ++ zpad 4 (natDigits (10 * pk.2))) ∧
  '_' ∉ pk.1 ∧ 1 ≤ pk.2

theorem shotNumbers_conv :
    ∀ (shots : List Shot) (meta : List (PyStr × Nat)),
      List.Forall₂ ConvNamed shots meta →
      shotNumbers shots = .ok (meta.map (fun pk => (pk.2 : Int))) := by
  intro shots meta hf
  induction hf with
  | nil => rfl
  | cons hhead htail ih =>
    rw [shotNumbers]
    rw [shotNumber_conv _ _ _ hhead.2.1 hhead.2.2 hhead.1]
    simp only [Bind.bind, Except.bind]
    rw [ih]
    rfl

theorem sorted_getLast?_max (l : List Int) (hs : l.Sorted (· ≤ ·)) (M : Int)
    (hM : M ∈ l) (hb : ∀ x ∈ l, x ≤ M) : l.getLast? = some M := by
  induction l with
  | nil => exact absurd hM (List.not_mem_nil M)
  | cons a t ih =>
    cases t with
    | nil =>
      rw [List.mem_singleton] at hM
      rw [hM]
      rfl
    | cons b t' =>
      rw [List.getLast?_cons_cons]
      have hs' : (b :: t').Sorted (· ≤ ·) := hs.tail
      have hb' : ∀ x ∈ b :: t', x ≤ M := fun x hx => hb x (by simp [hx])
      rcases List.mem_cons.mp hM with heq | hM'
      · have hab : a ≤ b := List.rel_of_sorted_cons hs b (by simp)
        have hba : b ≤ M := hb b (by simp)
        have : b = M := le_antisymm hba (heq ▸ hab)
        exact ih hs' (this ▸ List.mem_cons_self b t') hb'
      · exact ih hs' hM' hb'

theorem insertionSort_getLastD_max (l : List Int) (M : Int)
    (hM : M ∈ l) (hb : ∀ x ∈ l, x ≤ M) :
    (l.insertionSort (· ≤ ·)).getLastD 0 = M := by
  have hs : (l.insertionSort (· ≤ ·)).Sorted (· ≤ ·) := List.sorted_insertionSort _ l
  have hM' : M ∈ l.insertionSort (· ≤ ·) := (List.mem_insertionSort _).mpr hM
  have hb' : ∀ x ∈ l.insertionSort (· ≤ ·), x ≤ M :=
    fun x hx => hb x ((List.mem_insertionSort _).mp hx)
  rw [List.getLastD_eq_getLast?, sorted_getLast?_max _ hs M hM' hb']
  rfl

theorem sh_suffix_no_und (k : Nat) :
    '_' ∉ 'S' :: 'H' :: zpad 4 (natDigits (10 * k)) := by
  intro hm
  rcases List.mem_cons.mp hm with hh | hm
  · exact absurd hh (by decide)
  rcases List.mem_cons.mp hm with hh | hm
  · exact absurd hh (by decide)
  · exact digit_ne_und (zpad_all_digit 4 _ (natDigits_all_digit _) _ hm) rfl

/-- C6 (amended): on an empty sequence (default name `SQ0010`),
`generate_shot_name` returns `"SQ0010_SH0010"`; on a sequence with the
single shot `SQ0010_SH0010` it returns `"SQ0010_SH0020"`.  In general,
when every shot name follows the convention
`prefix ++ "_SH" ++ <4-digit multiple of ten 10·k, k ≥ 1>`, the result is
the first shot's prefix combined with the *maximum* suffix advanced by one
step of 10 (`zpad 4 (natDigits (10·K + 10))` for the maximum step count
`K`).  The code reaches this by slicing away the suffix's last digit
(`[2:-1]`), so outside the convention (a suffix not ending in `0`) it does
*not* add 10 to the numeric suffix — see the counterexample. -/
theorem claim_C6_generate_shot_name :
    ((seqOfShots []).generate_shot_name = .ok (pyLit "SQ0010_SH0010")) ∧
    ((seqOfShots [mkTestShot "SQ0010_SH0010" 1 10]).generate_shot_name
        = .ok (pyLit "SQ0010_SH0020")) ∧
    (∀ (q : SequencerSequence) (meta : List (PyStr × Nat)) (K : Nat),
      List.Forall₂ ConvNamed q.shots meta →
      K ∈ meta.map Prod.snd →
      (∀ k ∈ meta.map Prod.snd, k ≤ K) →
      q.generate_shot_name
        = .ok ((meta.headD ([], 0)).1 ++ pyLit "_SH" ++ zpad 4 (natDigits (10 * K + 10)))) := by
  refine ⟨by decide, by decide, ?_⟩
  intro q meta K hf hK hbound
  obtain ⟨nm, shots⟩ := q
  simp only at hf
  cases hf with
  | nil => exact absurd hK (by simp)
  | @cons s₀ pk₀ srest metarest hhead htail =>
    have hsplit : pySplitUnd (pk₀.1 ++ pyLit "_SH" ++ zpad 4 (natDigits (10 * pk₀.2)))
        = [pk₀.1, 'S' :: 'H' :: zpad 4 (natDigits (10 * pk₀.2))] := by
      rw [show pk₀.1 ++ pyLit "_SH" ++ zpad 4 (natDigits (10 * pk₀.2))
          = pk₀.1 ++ '_' :: ('S' :: 'H' :: zpad 4 (natDigits (10 * pk₀.2))) from by simp [pyLit]]
      exact pySplitUnd_pair_of _ _ hhead.2.1 (sh_suffix_no_und pk₀.2)
    have hnums := shotNumbers_conv (s₀ :: srest) (pk₀ :: metarest)
      (List.Forall₂.cons hhead htail)
    show SequencerSequence.generate_shot_name ⟨nm, s₀ :: srest⟩ = _
    rw [SequencerSequence.generate_shot_name]
    simp only
    rw [hhead.1]
    simp only [pyNameAsStr, Bind.bind, Except.bind]
    rw [hsplit]
    simp only [List.headD_cons]
    rw [hnums]
    dsimp only
    have hmem : (K : Int) ∈ (pk₀ :: metarest).map (fun pk => (pk.2 : Int)) := by
      rw [List.mem_map] at hK ⊢
      obtain ⟨pk, hpk, hval⟩ := hK
      exact ⟨pk, hpk, by rw [hval]⟩
    have hbd : ∀ x ∈ (pk₀ :: metarest).map (fun pk => (pk.2 : Int)), x ≤ (K : Int) := by
      intro x hx
      rw [List.mem_map] at hx
      obtain ⟨pk, hpk, hval⟩ := hx
      rw [← hval]
      exact_mod_cast hbound pk.2 (List.mem_map.mpr ⟨pk, hpk, rfl⟩)
    rw [insertionSort_getLastD_max _ (K : Int) hmem hbd]
    rw [pyFormat3, if_neg (by omega : ¬ ((K : Int) + 1 < 0))]
    rw [show ((K : Int) + 1).toNat = K + 1 from by omega]
    rw [show 10 * K + 10 = 10 * (K + 1) from by ring]
    rw [← zpad3_append_zero (K + 1) (by omega)]
    simp [List.append_assoc]

/-- Counterexample to C6 as stated: the shot `SQ0010_SH0015` has numeric
suffix 15, so "the maximum numeric shot suffix advanced by one step of 10"
would be 25 (`SQ0010_SH0025`); the code slices the suffix to `"001"`
(`[2:-1]`), adds 1 and appends `'0'`, producing `SQ0010_SH0020`. -/
theorem claim_C6_counterexample :
    (seqOfShots [mkTestShot "SQ0010_SH0015" 1 10]).generate_shot_name
        = .ok (pyLit "SQ0010_SH0020") ∧
    (seqOfShots [mkTestShot "SQ0010_SH0015" 1 10]).generate_shot_name
        ≠ .ok (pyLit "SQ0010_SH0025") := by
  exact ⟨by decide, by decide⟩

/-- Witness for the amended C6 at the single-shot sequence
`SQ0010_SH0010` (prefix `SQ0010`, step count `k = 1`): the generated name
carries suffix `10·1 + 10 = 20`. -/
theorem claim_C6_witness :
    (seqOfShots [mkTestShot "SQ0010_SH0010" 1 10]).generate_shot_name
      = .ok (pyLit "SQ0010" ++ pyLit "_SH" ++ zpad 4 (natDigits (10 * 1 + 10))) :=
  claim_C6_generate_shot_name.2.2 (seqOfShots [mkTestShot "SQ0010_SH0010" 1 10])
    [(pyLit "SQ0010", 1)] 1
    (List.Forall₂.cons ⟨by decide, by decide, by decide⟩ List.Forall₂.nil) (by decide) (by decide)

/-- C7 (code defect): `generate_shot_name` has no error handling at all —
`int(shot.name.split("_")[-1][2:-1])` raises an uncaught `ValueError` on
a name whose sliced suffix is not numeric (here `SQ0010_SHABCD`, sliced
to `"ABC"`), a crash rather than the NameFormat error the spec requires;
and on other malformed names it silently misparses instead of failing
(here `SQ0010_0010`, sliced to `"1"`, yields `SQ0010_SH0020` without any
error). -/
theorem claim_C7_generate_name_crash :
    (seqOfShots [mkTestShot "SQ0010_SHABCD" 1 10]).generate_shot_name
        = .error .valueError ∧
    (seqOfShots [mkTestShot "SQ0010_0010" 1 10]).generate_shot_name
        = .ok (pyLit "SQ0010_SH0020") := by
  exact ⟨by decide, by decide⟩
